import Mathlib

/-!
Shallow embedding of the Tree Annotation & Interaction Engine of
phyloviewer-wasm (src/components/PhylocanvasViewer.vue and
src/components/Legend.vue), together with theorems settling the frozen
claims about it.

Modelling conventions:
* JavaScript strings are Lean strings (sequences of code points; the code
  only manipulates plain text, so UTF-16 surrogate details never matter for
  the claims).
* JavaScript objects used as dictionaries are association lists
  (List (String × V)) carrying insertion order; property reads take the
  unique binding (lists built by the model keep keys distinct, reads take
  the first binding).
* A possibly-undefined value is an Option; arithmetic on possibly-NaN
  numbers is Option Rat with none standing for NaN (non-finite results of
  division by zero are conflated into none as well; no claim depends on
  the NaN / Infinity distinction).
* Number is modelled as Rat; all the arithmetic the claims touch is exact
  in double precision except the pie-angle arithmetic, which is idealised
  as exact rationals (Math.PI is the exact rational value of the double
  constant).
-/

/- ## JavaScript string helpers -/

/-- Model of the JS expression a part or a default: a string is falsy
exactly when it is empty, so an empty or absent option falls through. -/
def jsOrS (o : Option String) (d : String) : String :=
  match o with
  | some s => if s = "" then d else s
  | none => d

/-- Model of s.split(given bar).[0]: the leading part of s before the
first bar character, or s itself when none occurs. -/
def extractAccessionVersion (nodeName : String) : String :=
  String.mk (nodeName.data.takeWhile (fun c => c ≠ '|'))

/-- Model of hay.includes needle (substring containment). -/
def jsIncludes (hay needle : String) : Bool :=
  (List.range (hay.data.length + 1)).any
    (fun i => needle.data.isPrefixOf (hay.data.drop i))

/-- Model of Array.join with the bar separator. -/
def joinPipe (parts : List String) : String :=
  match parts with
  | [] => ""
  | p :: ps => ps.foldl (fun a b => a ++ "|" ++ b) p

/- ## Metadata records and the lookup used throughout the component -/

/-- A metadata record: a JS object mapping field names to string values,
in key insertion order. -/
structure MetadataRecord where
  fields : List (String × String)
deriving DecidableEq, Repr

/-- Property read item.f : the value of field f, or none (undefined). -/
def getField (r : MetadataRecord) (f : String) : Option String :=
  (r.fields.find? (fun p => p.1 == f)).map (fun p => p.2)

/-- Model of Object.values item : the field values of the record. -/
def recordValues (r : MetadataRecord) : List String :=
  r.fields.map (fun p => p.2)

/-- Model of props.metadata.find comparing item.accessionVersion with the
given accession (strict equality; an undefined field never matches). -/
def findMetadata (metadata : List MetadataRecord) (acc : String) :
    Option MetadataRecord :=
  metadata.find? (fun item => getField item "accessionVersion" == some acc)

/- ## The component props the helper functions close over -/

/-- The props of PhylocanvasViewer that the pure helpers read. -/
structure Props where
  metadata : List MetadataRecord
  colorMap : List (String × String)
  selectedField : Option String
  searchTerm : String
  labelFields : List String
deriving Repr

/-- JS truthiness of props.selectedField (string or null): none when the
field is null or the empty string. -/
def selectedFieldStr (p : Props) : Option String :=
  match p.selectedField with
  | some s => if s = "" then none else some s
  | none => none

/-- Source buildNodeLabel: accession, then the values of the selected
label fields in their given order, skipping undefined, null and empty
values (undefined and null are both Option none here), joined with bars;
the bare accession when the metadata list is empty or no record matches. -/
def buildNodeLabel (p : Props) (nodeName : String) : String :=
  if p.metadata.isEmpty then extractAccessionVersion nodeName
  else
    match findMetadata p.metadata (extractAccessionVersion nodeName) with
    | none => extractAccessionVersion nodeName
    | some item =>
        joinPipe (extractAccessionVersion nodeName ::
          p.labelFields.filterMap (fun f =>
            match getField item f with
            | some v => if v = "" then none else some v
            | none => none))

/-- Source isNodeMatched: false on empty search term or empty metadata;
otherwise true iff the record found for the accession has some field
value whose lower-cased form contains the lower-cased search term. -/
def isNodeMatched (p : Props) (nodeName : String) : Bool :=
  if p.searchTerm = "" ∨ p.metadata.isEmpty then false
  else
    match findMetadata p.metadata (extractAccessionVersion nodeName) with
    | some item =>
        (recordValues item).any
          (fun v => jsIncludes v.toLower p.searchTerm.toLower)
    | none => false

/-- Source getNodeColor: none unless a field is selected, the color map
and metadata are nonempty, the record is found, its selected-field value
is truthy and the color map has a truthy entry for that value. -/
def getNodeColor (p : Props) (nodeName : String) : Option String :=
  if selectedFieldStr p = none ∨ p.colorMap.isEmpty ∨ p.metadata.isEmpty
  then none
  else
    match findMetadata p.metadata (extractAccessionVersion nodeName),
        selectedFieldStr p with
    | some item, some f =>
        match getField item f with
        | some v =>
            if v = "" then none
            else
              match (p.colorMap.find? (fun q => q.1 == v)).map
                  (fun q => q.2) with
              | some c => if c = "" then none else some c
              | none => none
        | none => none
    | _, _ => none

/- ## Leaf styles (generateStyles) -/

/-- One style directive: label is always present, colours only when set. -/
structure Style where
  label : String
  fillColour : Option String
  strokeColour : Option String
  strokeWidth : Option Nat
deriving DecidableEq, Repr

/-- Association-list write obj.k := v : overwrite the binding in place
when the key exists, append otherwise. -/
def objInsert (l : List (String × Style)) (k : String) (v : Style) :
    List (String × Style) :=
  match l with
  | [] => [(k, v)]
  | (k', v') :: rest =>
      if k' = k then (k, v) :: rest else (k', v') :: objInsert rest k v

/-- Association-list read obj.k. -/
def objLookup : List (String × Style) → String → Option Style
  | [], _ => none
  | (k', v) :: rest, k => if k' = k then some v else objLookup rest k

/-- The style built for one leaf id: label always, search highlight first,
otherwise the mapped colour when there is one. -/
def styleFor (p : Props) (i : String) : Style :=
  if p.searchTerm ≠ "" ∧ isNodeMatched p i then
    { label := buildNodeLabel p i
      fillColour := some "#ff0000"
      strokeColour := some "#cc0000"
      strokeWidth := some 2 }
  else
    { label := buildNodeLabel p i
      fillColour := getNodeColor p i
      strokeColour := none
      strokeWidth := none }

/-- A leaf node reference as read by the style and pie code: possibly
absent id and label. -/
structure LeafInfo where
  id : Option String
  label : Option String
deriving DecidableEq, Repr

/-- One iteration of the generateStyles loop: a leaf with a truthy id
gets its style written to the map, any other leaf is skipped. -/
def styleStep (p : Props) (styles : List (String × Style))
    (leaf : LeafInfo) : List (String × Style) :=
  match leaf.id with
  | some i => if i = "" then styles else objInsert styles i (styleFor p i)
  | none => styles

/-- Source generateStyles: for each leaf with a truthy id, build its style
(the label is always set, so the style object is never empty and is always
written to the map). -/
def generateStyles (p : Props) (leaves : List LeafInfo) :
    List (String × Style) :=
  leaves.foldl (styleStep p) []

/- ## Tree traversal (getDescendantLeaves) -/

/-- A tree node handed over by the renderer: either a leaf (carrying the
id and label the code may read) or an internal node with ordered
children. An internal node with no children models a node whose children
property is absent. -/
inductive TreeNode where
  | leaf (info : LeafInfo) : TreeNode
  | node (children : List TreeNode) : TreeNode
deriving Repr

mutual

/-- Source getDescendantLeaves: a leaf yields itself, an internal node
concatenates the descendant leaves of its children in child order (the
source loop pushes each child's leaves in order, which is exactly this
concatenation). -/
def getDescendantLeaves : TreeNode → List LeafInfo
  | .leaf info => [info]
  | .node children => getDescendantLeavesOfChildren children

/-- The loop over node.children: concatenate in child order. -/
def getDescendantLeavesOfChildren : List TreeNode → List LeafInfo
  | [] => []
  | c :: cs => getDescendantLeaves c ++ getDescendantLeavesOfChildren cs

end

/- ## Pie-chart aggregation (calculatePieChartData) -/

/-- The accession a descendant leaf is counted under: leaf.id, falling
back to leaf.label, falling back to the empty string, fed through
extractAccessionVersion. -/
def leafName (l : LeafInfo) : String :=
  jsOrS l.id (jsOrS l.label "")

/-- The value the counting loop credits a leaf with: the selected-field
value of the record found for the leaf's accession, provided a field is
selected, the record exists and the value is truthy (nonempty). -/
def leafFieldValue (p : Props) (l : LeafInfo) : Option String :=
  match findMetadata p.metadata (extractAccessionVersion (leafName l)),
      selectedFieldStr p with
  | some item, some f =>
      match getField item f with
      | some v => if v = "" then none else some v
      | none => none
  | _, _ => none

/-- Model of counts.v := (counts.v or 0) + 1 on a JS object kept as an
insertion-ordered association list: increment in place when the key
exists, append the key with count 1 otherwise. -/
def bump (counts : List (String × Nat)) (v : String) : List (String × Nat) :=
  match counts with
  | [] => [(v, 1)]
  | (k, c) :: rest =>
      if k = v then (k, c + 1) :: rest else (k, c) :: bump rest v

/-- One iteration of the counting loop: a counted leaf bumps its value's
counter and the running total, any other leaf changes nothing. -/
def pieStep (p : Props) (acc : List (String × Nat) × Nat) (l : LeafInfo) :
    List (String × Nat) × Nat :=
  match leafFieldValue p l with
  | some v => (bump acc.1 v, acc.2 + 1)
  | none => acc

/-- The counting pass of calculatePieChartData: the counts object (in key
insertion order) and the running total. -/
def pieCounts (p : Props) (descendants : List LeafInfo) :
    List (String × Nat) × Nat :=
  descendants.foldl (pieStep p) ([], 0)

/-- Decides whether a string is a canonical array-index property key in
the ECMAScript sense: the canonical decimal form of an integer n with
0 ≤ n < 2^32 - 1, that is, a nonempty digit string with no leading zero
(except the single digit 0 itself). Such keys are enumerated first, in
ascending numeric order, by Object.entries. -/
def canonIndex (s : String) : Option Nat :=
  match s.data with
  | [] => none
  | c :: cs =>
      if (c :: cs).all (fun d => d.isDigit) ∧ (c ≠ '0' ∨ cs = []) then
        if (c :: cs).foldl (fun acc d => acc * 10 + (d.toNat - 48)) 0 <
            4294967295 then
          some ((c :: cs).foldl (fun acc d => acc * 10 + (d.toNat - 48)) 0)
        else none
      else none

/-- The numeric sort key used to order array-index properties. -/
def keyNum (s : String) : Nat :=
  (canonIndex s).getD 0

/-- Insert one pair into a list of pairs sorted ascending by the numeric
value of the key. -/
def insertByKey (e : String × Nat) :
    List (String × Nat) → List (String × Nat)
  | [] => [e]
  | f :: rest =>
      if keyNum e.1 ≤ keyNum f.1 then e :: f :: rest
      else f :: insertByKey e rest

/-- Insertion sort of pairs by ascending numeric key value (stable). -/
def sortByKey : List (String × Nat) → List (String × Nat)
  | [] => []
  | e :: rest => insertByKey e (sortByKey rest)

/-- Model of Object.entries on the counts object: array-index keys first
in ascending numeric order, then the remaining keys in insertion order
(ECMAScript ordinary own property key order). -/
def jsEntries (l : List (String × Nat)) : List (String × Nat) :=
  sortByKey (l.filter (fun e => (canonIndex e.1).isSome)) ++
    l.filter (fun e => (canonIndex e.1).isNone)

/-- The exact rational value of the double-precision constant Math.PI. -/
def jsMathPI : ℚ := 884279719003555 / 281474976710656

/-- One pie segment as produced by calculatePieChartData. -/
structure PieSegment where
  startAngle : ℚ
  endAngle : ℚ
  color : String
  value : String
  count : Nat
  proportion : ℚ
deriving DecidableEq, Repr

/-- The segment-building loop: one segment per counts entry, accumulating
currentAngle; an unmapped (or empty) colour falls back to neutral gray. -/
def buildSegments (colorMap : List (String × String)) (total : Nat)
    (currentAngle : ℚ) : List (String × Nat) → List PieSegment
  | [] => []
  | (v, c) :: rest =>
      let proportion : ℚ := (c : ℚ) / (total : ℚ)
      let angle := proportion * 2 * jsMathPI
      let color :=
        match (colorMap.find? (fun q => q.1 == v)).map (fun q => q.2) with
        | some s => if s = "" then "#cccccc" else s
        | none => "#cccccc"
      { startAngle := currentAngle
        endAngle := currentAngle + angle
        color := color
        value := v
        count := c
        proportion := proportion } ::
        buildSegments colorMap total (currentAngle + angle) rest

/-- Source calculatePieChartData: empty unless a field is selected and
metadata is nonempty; count descendants by selected-field value; empty
when the total is zero; otherwise one segment per Object.entries entry of
the counts object, tiling angles from 0. -/
def calculatePieChartData (p : Props) (descendants : List LeafInfo) :
    List PieSegment :=
  if selectedFieldStr p = none ∨ p.metadata.isEmpty then []
  else if (pieCounts p descendants).2 = 0 then []
  else buildSegments p.colorMap (pieCounts p descendants).2 0
    (jsEntries (pieCounts p descendants).1)

/-- One iteration of the claim-side value collector: append a counted
value the first time it is seen. -/
def feStep (p : Props) (acc : List String) (l : LeafInfo) : List String :=
  match leafFieldValue p l with
  | some v => if v ∈ acc then acc else acc ++ [v]
  | none => acc

/-- Written from the claim, not the source: the distinct counted field
values in first-encountered order over the descendants in traversal
order. -/
def firstEncounteredValues (p : Props) (descendants : List LeafInfo) :
    List String :=
  descendants.foldl (feStep p) []

/-- Written from the amended claim: the ECMAScript property order on a
list of distinct keys — canonical array-index keys first in ascending
numeric order, then the rest in the given order. -/
def insertKeyStr (k : String) : List String → List String
  | [] => [k]
  | f :: rest =>
      if keyNum k ≤ keyNum f then k :: f :: rest else f :: insertKeyStr k rest

/-- Insertion sort of keys by ascending numeric value (stable). -/
def sortKeysStr : List String → List String
  | [] => []
  | k :: rest => insertKeyStr k (sortKeysStr rest)

/-- The ECMAScript own-property-key order on a list of keys. -/
def jsOrderKeys (l : List String) : List String :=
  sortKeysStr (l.filter (fun k => (canonIndex k).isSome)) ++
    l.filter (fun k => (canonIndex k).isNone)

/- ## Scale bar (calculateScaleBar) -/

/-- How a probed renderer method can behave: absent from the instance,
throwing when called, or returning a value (none models undefined). -/
inductive Getter (α : Type) where
  | missing : Getter α
  | throws : Getter α
  | returns (v : Option α) : Getter α
deriving DecidableEq, Repr

/-- Whether calling the getters inside the try block raises. -/
def Getter.isThrow {α : Type} : Getter α → Bool
  | .throws => true
  | _ => false

/-- NaN-propagating multiplication on possibly-NaN numbers. -/
def omul (a b : Option ℚ) : Option ℚ :=
  match a, b with
  | some x, some y => some (x * y)
  | _, _ => none

/-- NaN-propagating division; a zero divisor yields a non-finite result,
conflated into none (no claim distinguishes it from NaN). -/
def odiv (a b : Option ℚ) : Option ℚ :=
  match a, b with
  | some x, some y => if y = 0 then none else some (x / y)
  | _, _ => none

/-- NaN-rejecting comparison: any comparison against NaN is false. -/
def oLe (a : Option ℚ) (c : ℚ) : Bool :=
  match a with
  | some x => decide (x ≤ c)
  | none => false

/-- Math.floor (Math.log10 q) for a positive rational q: the integer e
with 10^e ≤ q < 10^(e+1). -/
def qLog10Floor (q : ℚ) : ℤ :=
  if 1 ≤ q then (Nat.log 10 q.floor.toNat : ℤ)
  else -(Nat.clog 10 (1 / q).ceil.toNat : ℤ)

/-- Math.pow 10 applied to the floored log, with NaN propagation and a
non-positive argument (whose log10 is NaN or minus infinity) conflated
into none. -/
def oMagnitude (a : Option ℚ) : Option ℚ :=
  match a with
  | some q => if 0 < q then some ((10 : ℚ) ^ qLog10Floor q) else none
  | none => none

/-- The scale-bar state written by calculateScaleBar. -/
structure ScaleBarState where
  value : Option ℚ
  pixelLength : Option ℚ
deriving DecidableEq, Repr

/-- Source calculateScaleBar: returns the previous state untouched when
there is no tree instance; when either getter throws, the catch block
writes the fixed fallback 0.1 / 100; otherwise a missing method defaults
branchScale to 1 and zoom to 0, an undefined return value poisons the
arithmetic as NaN, and the nice-number snap picks 1, 2, 5 or 10 times the
magnitude (every comparison against NaN is false, so NaN falls through to
the 10-times branch and stays NaN). -/
def calculateScaleBar (hasInstance : Bool) (prev : ScaleBarState)
    (gBS : Getter ℚ) (gZ : Getter ℤ) : ScaleBarState :=
  if !hasInstance then prev
  else if gBS.isThrow || gZ.isThrow then
    { value := some (1 / 10), pixelLength := some 100 }
  else
    let branchScale : Option ℚ :=
      match gBS with
      | .missing => some 1
      | .returns v => v
      | .throws => none
    let zoom : Option ℤ :=
      match gZ with
      | .missing => some 0
      | .returns v => v
      | .throws => none
    let currentScale := omul branchScale (zoom.map (fun z => (2 : ℚ) ^ z))
    let actualDistance := odiv (some 100) currentScale
    let magnitude := oMagnitude actualDistance
    let normalized := odiv actualDistance magnitude
    let niceDistance :=
      if oLe normalized 1 then magnitude
      else if oLe normalized 2 then omul (some 2) magnitude
      else if oLe normalized 5 then omul (some 5) magnitude
      else omul (some 10) magnitude
    { value := niceDistance, pixelLength := omul niceDistance currentScale }

/- ## Tooltip positioning (nodeTooltipGlobalStyle) -/

/-- The tooltip session fields the position computation reads. -/
structure TooltipState where
  x : ℚ
  y : ℚ
  dragOffsetX : ℚ
  dragOffsetY : ℚ
  isDragging : Bool
deriving DecidableEq, Repr

/-- Source nodeTooltipGlobalStyle, position part: base plus drag offset;
when not dragging, pull a box that would overflow the right or bottom
edge back to a 10px margin and force at least 10px on the left and top. -/
def nodeTooltipGlobalStyle (t : TooltipState)
    (innerWidth innerHeight : ℚ) : ℚ × ℚ :=
  let x := t.x + t.dragOffsetX
  let y := t.y + t.dragOffsetY
  if t.isDragging then (x, y)
  else
    let tooltipWidth : ℚ := 300
    let tooltipHeight : ℚ := 200
    let x := if x + tooltipWidth > innerWidth
      then innerWidth - tooltipWidth - 10 else x
    let y := if y + tooltipHeight > innerHeight
      then innerHeight - tooltipHeight - 10 else y
    (max 10 x, max 10 y)

/- ## Legend colour generation (generateColor) -/

/-- ToInt32: reduce an integer into the signed 32-bit range the way the
ECMAScript shift operator does. -/
def toInt32 (n : ℤ) : ℤ :=
  let m := n % 4294967296
  if m < 2147483648 then m else m - 4294967296

/-- One step of the rolling hash: charCode + ((hash shifted left by 5) -
hash). Only the shift truncates to 32 bits; the outer sum and difference
are plain (exact) number arithmetic. -/
def hashStep (h : ℤ) (c : Nat) : ℤ :=
  (c : ℤ) + (toInt32 (h * 32) - h)

/-- The hash of a string: fold hashStep over its characters from 0. -/
def hashString (s : String) : ℤ :=
  s.data.foldl (fun h ch => hashStep h ch.toNat) 0

/-- The ECMAScript remainder operator on integers: truncated division
remainder, taking the sign of the dividend. -/
def jsRem (a b : ℤ) : ℤ :=
  if a < 0 then -((-a) % b) else a % b

/-- Source generateColor in Legend.vue: an HSL colour string whose hue is
the hash remainder modulo 360 (possibly negative), with fixed saturation
100% and lightness 75%. -/
def generateColor (s : String) : String :=
  "hsl(" ++ toString (jsRem (hashString s) 360) ++ ", 100%, 75%)"

/- ## Claim-side auxiliary definitions -/

/-- Written from the claim: the values of the supplied label fields, in
the supplied order, skipping undefined, null and empty values. -/
def labelValuesSpec (item : MetadataRecord) (fields : List String) :
    List String :=
  fields.filterMap (fun f =>
    match getField item f with
    | some v => if v = "" then none else some v
    | none => none)

/-- The sum of the per-value counters of a counts object. -/
def sumCounts (l : List (String × Nat)) : Nat :=
  (l.map (fun e => e.2)).sum

/-- A segment list tiles the angle interval from a to b: the first
segment starts at a, each segment starts where the previous one ended,
and the last one ends at b (for the empty list, a = b). -/
def TilesFrom : List PieSegment → ℚ → ℚ → Prop
  | [], a, b => a = b
  | s :: rest, a, b => s.startAngle = a ∧ TilesFrom rest s.endAngle b

/- ## Concrete instances used by witnesses and counterexamples -/

/-- A record whose selected-field value is the integer-like string 10. -/
def recIdx1 : MetadataRecord := ⟨[("accessionVersion", "A1"), ("f", "10")]⟩

/-- A record whose selected-field value is the integer-like string 2. -/
def recIdx2 : MetadataRecord := ⟨[("accessionVersion", "A2"), ("f", "2")]⟩

/-- Props selecting field f over the two integer-valued records. -/
def propsIdx : Props := ⟨[recIdx1, recIdx2], [], some "f", "", ["SampleID"]⟩

/-- An internal node whose two children are the leaves A1 and A2. -/
def nodeIdx : TreeNode :=
  .node [.leaf ⟨some "A1", none⟩, .leaf ⟨some "A2", none⟩]

/-- The metadata record of the spec's labelling example. -/
def recUSA : MetadataRecord :=
  ⟨[("accessionVersion", "A1"), ("SampleID", "S1"), ("Country", "USA")]⟩

/-- Props carrying that record, the spec's label fields and search term. -/
def propsUSA : Props :=
  ⟨[recUSA], [], none, "usa", ["SampleID", "Country"]⟩

/-- The three records of the spec's pie-chart example. -/
def recPie1 : MetadataRecord :=
  ⟨[("accessionVersion", "B1"), ("Country", "USA")]⟩

/-- Second record of the pie-chart example. -/
def recPie2 : MetadataRecord :=
  ⟨[("accessionVersion", "B2"), ("Country", "USA")]⟩

/-- Third record of the pie-chart example. -/
def recPie3 : MetadataRecord :=
  ⟨[("accessionVersion", "B3"), ("Country", "Canada")]⟩

/-- Props selecting Country over the three pie-chart records. -/
def propsPie : Props :=
  ⟨[recPie1, recPie2, recPie3], [("USA", "#111111")], some "Country", "",
    ["SampleID"]⟩

/-- The three descendants of the pie-chart example. -/
def leavesPie : List LeafInfo :=
  [⟨some "B1", none⟩, ⟨some "B2", none⟩, ⟨some "B3", none⟩]

/-- First of two records sharing the accession A. -/
def recDupX : MetadataRecord := ⟨[("accessionVersion", "A"), ("f", "x")]⟩

/-- Second of two records sharing the accession A. -/
def recDupY : MetadataRecord := ⟨[("accessionVersion", "A"), ("f", "y")]⟩

/-- Props whose metadata holds the duplicated accession A twice. -/
def propsDup : Props := ⟨[recDupX, recDupY], [], some "f", "", ["f"]⟩

/-- Leaves fed to generateStyles in the style-map witness: one labelled
leaf, one leaf without id, one leaf with an empty id. -/
def leavesStyles : List LeafInfo :=
  [⟨some "A1", none⟩, ⟨none, some "x"⟩, ⟨some "", none⟩]

/- ## Helper lemmas -/

/-- A bar-joined nonempty list of parts begins with its first part. -/
lemma joinPipe_cons_exists (rest : List String) (a : String) :
    ∃ t, joinPipe (a :: rest) = a ++ t := by
  induction rest generalizing a with
  | nil => exact ⟨"", (String.append_empty a).symm⟩
  | cons b bs ih =>
      obtain ⟨t, ht⟩ := ih (a ++ "|" ++ b)
      refine ⟨"|" ++ (b ++ t), ?_⟩
      have hstep : joinPipe (a :: b :: bs) = joinPipe ((a ++ "|" ++ b) :: bs) := rfl
      rw [hstep, ht, String.append_assoc, String.append_assoc]

/-- On a name without a bar the accession is the whole name. -/
lemma extractAccessionVersion_no_bar (n : String)
    (h : ∀ c ∈ n.data, c ≠ '|') : extractAccessionVersion n = n := by
  unfold extractAccessionVersion
  have hself : n.data.takeWhile (fun c => c ≠ '|') = n.data := by
    rw [List.takeWhile_eq_self_iff]
    intro c hc
    simp [h c hc]
  rw [hself]

/-- Claim C2: buildNodeLabel starts with the accession (the part of the id
before the first bar, the whole id when no bar occurs); with a matching
record it is the accession followed by the values of the supplied label
fields in order, skipping undefined, null and empty values, joined with
bars; with empty metadata, no matching record, or no label fields it is
the accession alone. -/
theorem buildNodeLabel_spec (p : Props) (n : String) :
    (∃ t, buildNodeLabel p n = extractAccessionVersion n ++ t) ∧
    (p.metadata = [] → buildNodeLabel p n = extractAccessionVersion n) ∧
    (findMetadata p.metadata (extractAccessionVersion n) = none →
      buildNodeLabel p n = extractAccessionVersion n) ∧
    (p.labelFields = [] → buildNodeLabel p n = extractAccessionVersion n) ∧
    (∀ item, findMetadata p.metadata (extractAccessionVersion n) = some item →
      buildNodeLabel p n =
        joinPipe (extractAccessionVersion n ::
          labelValuesSpec item p.labelFields)) ∧
    ((∀ c ∈ n.data, c ≠ '|') → extractAccessionVersion n = n) := by
  refine ⟨?_, ?_, ?_, ?_, ?_, extractAccessionVersion_no_bar n⟩
  · by_cases h1 : p.metadata.isEmpty
    · refine ⟨"", ?_⟩
      rw [String.append_empty]
      simp [buildNodeLabel, h1]
    · cases hf : findMetadata p.metadata (extractAccessionVersion n) with
      | none =>
          refine ⟨"", ?_⟩
          rw [String.append_empty]
          simp [buildNodeLabel, h1, hf]
      | some item =>
          obtain ⟨t, ht⟩ := joinPipe_cons_exists
            (labelValuesSpec item p.labelFields) (extractAccessionVersion n)
          refine ⟨t, ?_⟩
          simpa [buildNodeLabel, h1, hf, labelValuesSpec] using ht
  · intro hm; simp [buildNodeLabel, hm]
  · intro hf
    by_cases h1 : p.metadata.isEmpty
    · simp [buildNodeLabel, h1]
    · simp [buildNodeLabel, h1, hf]
  · intro hl
    by_cases h1 : p.metadata.isEmpty
    · simp [buildNodeLabel, h1]
    · cases hf : findMetadata p.metadata (extractAccessionVersion n) with
      | none => simp [buildNodeLabel, h1, hf]
      | some item => simp [buildNodeLabel, h1, hf, hl, joinPipe]
  · intro item hf
    have h1 : p.metadata.isEmpty = false := by
      cases hm : p.metadata with
      | nil => rw [hm] at hf; simp [findMetadata] at hf
      | cons x xs => simp [hm]
    simp [buildNodeLabel, h1, hf, labelValuesSpec]

/-- Witness for the label claim at the spec's labelling example. -/
theorem buildNodeLabel_spec_witness :
    findMetadata propsUSA.metadata (extractAccessionVersion "A1|S1") =
      some recUSA ∧
    buildNodeLabel propsUSA "A1|S1" =
      joinPipe (extractAccessionVersion "A1|S1" ::
        labelValuesSpec recUSA ["SampleID", "Country"]) :=
  ⟨by decide,
    (buildNodeLabel_spec propsUSA "A1|S1").2.2.2.2.1 recUSA (by decide)⟩

/-- Claim C3: isNodeMatched is true exactly when the search term is
nonempty, the metadata list is nonempty, the lookup resolves a record for
the node's accession, and some field value of that record, lower-cased,
contains the lower-cased search term; empty search term or empty metadata
gives false. -/
theorem isNodeMatched_iff (p : Props) (n : String) :
    isNodeMatched p n = true ↔
      p.searchTerm ≠ "" ∧ p.metadata ≠ [] ∧
        ∃ item,
          findMetadata p.metadata (extractAccessionVersion n) = some item ∧
          ∃ v ∈ recordValues item,
            jsIncludes v.toLower p.searchTerm.toLower = true := by
  by_cases h : p.searchTerm = "" ∨ p.metadata.isEmpty
  · rw [show isNodeMatched p n = false from by
      unfold isNodeMatched; rw [if_pos h]]
    simp only [Bool.false_eq_true, false_iff]
    rintro ⟨h1, h2, -⟩
    rcases h with h | h
    · exact h1 h
    · exact h2 (List.isEmpty_iff.mp h)
  · push_neg at h
    obtain ⟨h1, h2⟩ := h
    have h2' : p.metadata ≠ [] := fun hm => by simp [hm] at h2
    have hne : ¬(p.searchTerm = "" ∨ p.metadata.isEmpty = true) := by
      push_neg; exact ⟨h1, h2⟩
    cases hf : findMetadata p.metadata (extractAccessionVersion n) with
    | none =>
        rw [show isNodeMatched p n = false from by
          unfold isNodeMatched; rw [if_neg hne, hf]]
        simp only [Bool.false_eq_true, false_iff]
        rintro ⟨-, -, item, hitem, -⟩
        exact Option.noConfusion hitem
    | some item =>
        rw [show isNodeMatched p n =
            (recordValues item).any
              (fun v => jsIncludes v.toLower p.searchTerm.toLower) from by
          unfold isNodeMatched; rw [if_neg hne, hf]]
        rw [List.any_eq_true]
        constructor
        · rintro ⟨v, hv, hinc⟩
          exact ⟨h1, h2', item, rfl, v, hv, hinc⟩
        · rintro ⟨-, -, item', hitem', v, hv, hinc⟩
          cases hitem'
          exact ⟨v, hv, hinc⟩

/-- Claim C7: when no descendant leaf is credited with a nonempty
selected-field value for the selected field, the counted total is zero
and the pie data is the empty segment list. -/
theorem calculatePieChartData_total_zero (p : Props) (ds : List LeafInfo)
    (h : ∀ l ∈ ds, leafFieldValue p l = none) :
    calculatePieChartData p ds = [] := by
  have hfold : ∀ (ds' : List LeafInfo) (acc : List (String × Nat) × Nat),
      (∀ l ∈ ds', leafFieldValue p l = none) →
      ds'.foldl (pieStep p) acc = acc := by
    intro ds'
    induction ds' with
    | nil => intro acc _; rfl
    | cons l rest ih =>
        intro acc hall
        have hstep : pieStep p acc l = acc := by
          simp [pieStep, hall l (by simp)]
        simp only [List.foldl_cons, hstep]
        exact ih acc (fun x hx => hall x (by simp [hx]))
  have hct : pieCounts p ds = ([], 0) := hfold ds ([], 0) h
  unfold calculatePieChartData
  rw [hct]
  simp

/-- Witness for the empty-aggregate claim: a descendant with no metadata
record yields no segments. -/
theorem calculatePieChartData_total_zero_witness :
    (∀ l ∈ ([⟨some "ZZ", none⟩] : List LeafInfo),
      leafFieldValue propsPie l = none) ∧
    calculatePieChartData propsPie [⟨some "ZZ", none⟩] = [] :=
  ⟨by decide, calculatePieChartData_total_zero propsPie _ (by decide)⟩

/-- Claim C8: generateColor is the pure function producing the HSL string
whose hue is the rolling hash taken with the remainder operator modulo
360, saturation 100% and lightness 75%; the hash starts at 0 and each
character contributes charCode + ((hash shifted left 5, as int32) -
hash). -/
theorem generateColor_spec :
    (∀ s : String, generateColor s =
      "hsl(" ++ toString (jsRem (hashString s) 360) ++ ", 100%, 75%)") ∧
    hashString "" = 0 ∧
    (∀ (s : String) (c : Char),
      hashString (s.push c) = hashStep (hashString s) c.toNat) := by
  refine ⟨fun s => rfl, rfl, fun s c => ?_⟩
  unfold hashString
  have hdata : (s.push c).data = s.data ++ [c] := rfl
  rw [hdata, List.foldl_append]
  rfl

/- ## Lookup resolution with duplicate accessions (C5) -/

/-- Array.find resolves the first matching record: everything before the
first hit is skipped, everything after it is ignored. -/
lemma findMetadata_append_cons (pre post : List MetadataRecord)
    (r : MetadataRecord) (a : String)
    (hpre : ∀ r' ∈ pre, getField r' "accessionVersion" ≠ some a)
    (hr : getField r "accessionVersion" = some a) :
    findMetadata (pre ++ r :: post) a = some r := by
  induction pre with
  | nil =>
      simp only [List.nil_append, findMetadata]
      rw [List.find?_cons_of_pos]
      simp [hr]
  | cons x xs ih =>
      simp only [List.cons_append, findMetadata]
      rw [List.find?_cons_of_neg _ (by simp [hpre x (by simp)])]
      exact ih (fun r' h' => hpre r' (List.mem_cons_of_mem x h'))

/-- Claim C5 (amended): when duplicates occur, every lookup by accession
(labels, search, colouring, pie counting) resolves to the FIRST record in
the metadata list with that accessionVersion; all records after the first
hit are ignored, so the outputs agree with those computed on the list
truncated right after the first hit. -/
theorem metadataLookup_first_wins (pre post : List MetadataRecord)
    (r : MetadataRecord) (cm : List (String × String)) (sf : Option String)
    (st : String) (lf : List String) (n : String) (l : LeafInfo)
    (hpre : ∀ r' ∈ pre,
      getField r' "accessionVersion" ≠ some (extractAccessionVersion n))
    (hr : getField r "accessionVersion" = some (extractAccessionVersion n)) :
    findMetadata (pre ++ r :: post) (extractAccessionVersion n) = some r ∧
    buildNodeLabel ⟨pre ++ r :: post, cm, sf, st, lf⟩ n =
      buildNodeLabel ⟨pre ++ [r], cm, sf, st, lf⟩ n ∧
    isNodeMatched ⟨pre ++ r :: post, cm, sf, st, lf⟩ n =
      isNodeMatched ⟨pre ++ [r], cm, sf, st, lf⟩ n ∧
    getNodeColor ⟨pre ++ r :: post, cm, sf, st, lf⟩ n =
      getNodeColor ⟨pre ++ [r], cm, sf, st, lf⟩ n ∧
    (extractAccessionVersion (leafName l) = extractAccessionVersion n →
      leafFieldValue ⟨pre ++ r :: post, cm, sf, st, lf⟩ l =
        leafFieldValue ⟨pre ++ [r], cm, sf, st, lf⟩ l) := by
  have hfind1 : findMetadata (pre ++ r :: post) (extractAccessionVersion n) =
      some r := findMetadata_append_cons pre post r _ hpre hr
  have hfind2 : findMetadata (pre ++ [r]) (extractAccessionVersion n) =
      some r := findMetadata_append_cons pre [] r _ hpre hr
  have hne1 : (pre ++ r :: post).isEmpty = false := by
    cases pre <;> simp
  have hne2 : (pre ++ [r]).isEmpty = false := by
    cases pre <;> simp
  refine ⟨hfind1, ?_, ?_, ?_, ?_⟩
  · simp only [buildNodeLabel, hne1, hne2, hfind1, hfind2]
  · simp only [isNodeMatched, hne1, hne2, hfind1, hfind2]
  · simp only [getNodeColor, hne1, hne2, hfind1, hfind2, selectedFieldStr]
  · intro hacc
    simp only [leafFieldValue, hacc, hfind1, hfind2, selectedFieldStr]

/-- Counterexample to last-write-wins: with the accession A duplicated,
the label is built from the first record (value x), not the last (y). -/
theorem buildNodeLabel_duplicate_counterexample :
    buildNodeLabel propsDup "A" = "A|x" ∧
    buildNodeLabel propsDup "A" ≠ "A|y" := by
  constructor
  · decide
  · decide

/-- Witness for the first-record resolution at the duplicate example. -/
theorem metadataLookup_first_wins_witness :
    findMetadata ([] ++ recDupX :: [recDupY]) (extractAccessionVersion "A") =
      some recDupX ∧
    buildNodeLabel ⟨[] ++ recDupX :: [recDupY], [], some "f", "", ["f"]⟩ "A" =
      buildNodeLabel ⟨[] ++ [recDupX], [], some "f", "", ["f"]⟩ "A" :=
  ⟨(metadataLookup_first_wins [] [recDupY] recDupX [] (some "f") "" ["f"]
      "A" ⟨none, none⟩ (by decide) (by decide)).1,
    (metadataLookup_first_wins [] [recDupY] recDupX [] (some "f") "" ["f"]
      "A" ⟨none, none⟩ (by decide) (by decide)).2.1⟩

/- ## Scale-bar failure handling (C6) -/

/-- Claim C6 (amended): when a renderer state getter throws, the catch
block substitutes the fixed fallback value 0.1 and pixel length 100 and
nothing propagates; but when a getter merely returns undefined, the NaN
poisons the computation and the fallback is NOT applied. -/
theorem calculateScaleBar_throw_fallback (prev : ScaleBarState)
    (gBS : Getter ℚ) (gZ : Getter ℤ) :
    (gBS = Getter.throws ∨ gZ = Getter.throws →
      calculateScaleBar true prev gBS gZ =
        { value := some (1 / 10), pixelLength := some 100 }) ∧
    (gBS ≠ Getter.throws → gZ ≠ Getter.throws →
      gBS = Getter.returns none ∨ gZ = Getter.returns none →
      (calculateScaleBar true prev gBS gZ).value = none) := by
  constructor
  · intro h
    have hthrow : (gBS.isThrow || gZ.isThrow) = true := by
      rcases h with h | h <;> simp [h, Getter.isThrow]
    unfold calculateScaleBar
    simp [hthrow]
  · intro hbs hz hundef
    unfold calculateScaleBar
    cases gBS with
    | throws => exact absurd rfl hbs
    | missing =>
        cases gZ with
        | throws => exact absurd rfl hz
        | missing => rcases hundef with h | h <;> simp at h
        | returns v =>
            cases v with
            | none => simp [Getter.isThrow, omul, odiv, oMagnitude, oLe]
            | some z => rcases hundef with h | h <;> simp at h
    | returns w =>
        cases w with
        | none =>
            cases gZ with
            | throws => exact absurd rfl hz
            | missing => simp [Getter.isThrow, omul, odiv, oMagnitude, oLe]
            | returns v =>
                cases v with
                | none => simp [Getter.isThrow, omul, odiv, oMagnitude, oLe]
                | some z => simp [Getter.isThrow, omul, odiv, oMagnitude, oLe]
        | some q =>
            cases gZ with
            | throws => exact absurd rfl hz
            | missing => rcases hundef with h | h <;> simp at h
            | returns v =>
                cases v with
                | none => simp [Getter.isThrow, omul, odiv, oMagnitude, oLe]
                | some z => rcases hundef with h | h <;> simp at h

/-- Counterexample: getBranchScale returning undefined leaves the scale
bar NaN, not set to the claimed fallback. -/
theorem calculateScaleBar_undefined_counterexample :
    calculateScaleBar true
        { value := some (1 / 10), pixelLength := some 100 }
        (Getter.returns none) Getter.missing ≠
      { value := some (1 / 10), pixelLength := some 100 } := by
  decide

/-- Witness for the throw-fallback behaviour at concrete getters, with
the undefined-return case exercised on each of the two getters. -/
theorem calculateScaleBar_throw_fallback_witness :
    calculateScaleBar true { value := some 5, pixelLength := some 7 }
        Getter.throws (Getter.returns (some 3)) =
      { value := some (1 / 10), pixelLength := some 100 } ∧
    (calculateScaleBar true { value := some 5, pixelLength := some 7 }
        (Getter.returns none) Getter.missing).value = none ∧
    (calculateScaleBar true { value := some 5, pixelLength := some 7 }
        (Getter.returns (some 3)) (Getter.returns none)).value = none :=
  ⟨(calculateScaleBar_throw_fallback _ _ _).1 (Or.inl rfl),
    (calculateScaleBar_throw_fallback _ _ _).2
      (fun h => Getter.noConfusion h) (fun h => Getter.noConfusion h)
      (Or.inl rfl),
    (calculateScaleBar_throw_fallback _ _ _).2
      (fun h => Getter.noConfusion h) (fun h => Getter.noConfusion h)
      (Or.inr rfl)⟩

/- ## Tooltip clamping (C9) -/

/-- Claim C9 (amended): with the session not dragging and a viewport of at
least 320 by 220, the displayed position keeps the assumed 300 by 200 box
fully inside the viewport, with at least a 10px margin on the left and
top; on the right and bottom the box never overflows, and whenever the
unclamped position would overflow, the clamp leaves exactly a 10px
margin (but an unclamped box may sit closer than 10px to those edges);
while dragging, no clamping at all is applied. -/
theorem nodeTooltipGlobalStyle_clamp (t : TooltipState) (W H : ℚ)
    (hdrag : t.isDragging = false) (hW : 320 ≤ W) (hH : 220 ≤ H) :
    10 ≤ (nodeTooltipGlobalStyle t W H).1 ∧
    10 ≤ (nodeTooltipGlobalStyle t W H).2 ∧
    (nodeTooltipGlobalStyle t W H).1 + 300 ≤ W ∧
    (nodeTooltipGlobalStyle t W H).2 + 200 ≤ H ∧
    (t.x + t.dragOffsetX + 300 > W →
      (nodeTooltipGlobalStyle t W H).1 + 300 + 10 = W) ∧
    (t.y + t.dragOffsetY + 200 > H →
      (nodeTooltipGlobalStyle t W H).2 + 200 + 10 = H) ∧
    (∀ t' : TooltipState, t'.isDragging = true →
      nodeTooltipGlobalStyle t' W H =
        (t'.x + t'.dragOffsetX, t'.y + t'.dragOffsetY)) := by
  have hdrag' : nodeTooltipGlobalStyle t W H =
      (max 10 (if t.x + t.dragOffsetX + 300 > W then W - 300 - 10
        else t.x + t.dragOffsetX),
       max 10 (if t.y + t.dragOffsetY + 200 > H then H - 200 - 10
        else t.y + t.dragOffsetY)) := by
    unfold nodeTooltipGlobalStyle
    rw [hdrag]
    simp
  rw [hdrag']
  dsimp only
  refine ⟨le_max_left _ _, le_max_left _ _, ?_, ?_, ?_, ?_, ?_⟩
  · by_cases h1 : t.x + t.dragOffsetX + 300 > W
    · rw [if_pos h1, max_eq_right (by linarith)]
      linarith
    · rw [if_neg h1]
      have : max 10 (t.x + t.dragOffsetX) ≤ W - 300 :=
        max_le (by linarith) (by linarith)
      linarith
  · by_cases h1 : t.y + t.dragOffsetY + 200 > H
    · rw [if_pos h1, max_eq_right (by linarith)]
      linarith
    · rw [if_neg h1]
      have : max 10 (t.y + t.dragOffsetY) ≤ H - 200 :=
        max_le (by linarith) (by linarith)
      linarith
  · intro h1
    rw [if_pos h1, max_eq_right (by linarith)]
    ring
  · intro h1
    rw [if_pos h1, max_eq_right (by linarith)]
    ring
  · intro t' h'
    unfold nodeTooltipGlobalStyle
    rw [h']
    simp

/-- Counterexample: at viewport 1000 by 800, a base position of
(695, 595) is left unclamped although the box then sits only 5px from the
right and bottom edges, violating the claimed 10px margin. -/
theorem nodeTooltipGlobalStyle_margin_counterexample :
    nodeTooltipGlobalStyle ⟨695, 595, 0, 0, false⟩ 1000 800 = (695, 595) ∧
    (695 : ℚ) + 300 + 10 > 1000 ∧ (595 : ℚ) + 200 + 10 > 800 := by
  refine ⟨?_, by norm_num, by norm_num⟩
  unfold nodeTooltipGlobalStyle
  norm_num

/-- Witness for the clamp theorem at a bottom-right click: the box stays
inside and the triggered clamp leaves exactly a 10px right margin. -/
theorem nodeTooltipGlobalStyle_clamp_witness :
    10 ≤ (nodeTooltipGlobalStyle ⟨990, 790, 0, 0, false⟩ 1000 800).1 ∧
    (nodeTooltipGlobalStyle ⟨990, 790, 0, 0, false⟩ 1000 800).1 + 300 ≤
      1000 ∧
    (nodeTooltipGlobalStyle ⟨990, 790, 0, 0, false⟩ 1000 800).1 + 300 +
      10 = 1000 :=
  ⟨(nodeTooltipGlobalStyle_clamp ⟨990, 790, 0, 0, false⟩ 1000 800 rfl
      (by norm_num) (by norm_num)).1,
    (nodeTooltipGlobalStyle_clamp ⟨990, 790, 0, 0, false⟩ 1000 800 rfl
      (by norm_num) (by norm_num)).2.2.1,
    (nodeTooltipGlobalStyle_clamp ⟨990, 790, 0, 0, false⟩ 1000 800 rfl
      (by norm_num) (by norm_num)).2.2.2.2.1 (by norm_num)⟩

/- ## Style map coverage (C10) -/

/-- Reading back an association-list write: the written key sees the new
value, any other key is unaffected. -/
lemma objLookup_objInsert (l : List (String × Style)) (k k' : String)
    (v : Style) :
    objLookup (objInsert l k v) k' =
      if k' = k then some v else objLookup l k' := by
  induction l with
  | nil =>
      by_cases h : k' = k
      · subst h
        simp [objInsert, objLookup]
      · simp [objInsert, objLookup, h, Ne.symm h]
  | cons e rest ih =>
      obtain ⟨ek, ev⟩ := e
      by_cases he : ek = k
      · subst he
        by_cases h : k' = ek
        · subst h
          simp [objInsert, objLookup]
        · simp [objInsert, objLookup, h, Ne.symm h]
      · by_cases h : k' = ek
        · subst h
          simp [objInsert, objLookup, he, Ne.symm he]
        · simp [objInsert, objLookup, he, h, Ne.symm h, ih]

/-- A leaf that does not carry this (nonempty) key leaves its lookup
untouched. -/
lemma objLookup_styleStep_miss (p : Props) (acc : List (String × Style))
    (l : LeafInfo) (key : String)
    (h : l.id ≠ some key ∨ key = "") :
    objLookup (styleStep p acc l) key = objLookup acc key := by
  cases hl : l.id with
  | none => simp [styleStep, hl]
  | some i =>
      by_cases hi : i = ""
      · simp [styleStep, hl, hi]
      · have hik : key ≠ i := by
          rcases h with h | h
          · intro he; exact h (by rw [hl, he])
          · intro he; exact hi (by rw [← he, h])
        simp [styleStep, hl, hi, objLookup_objInsert, hik]

/-- A leaf that carries this nonempty key writes exactly its style. -/
lemma objLookup_styleStep_hit (p : Props) (acc : List (String × Style))
    (l : LeafInfo) (key : String) (h1 : l.id = some key) (h2 : key ≠ "") :
    objLookup (styleStep p acc l) key = some (styleFor p key) := by
  simp [styleStep, h1, h2, objLookup_objInsert]

/-- Characterisation of the generateStyles fold: a key is present exactly
when some processed leaf carries it as a nonempty id, and then it maps to
the style computed for that id. -/
lemma generateStyles_fold_lookup (p : Props) (leaves : List LeafInfo) :
    ∀ (acc : List (String × Style)) (key : String),
      objLookup (leaves.foldl (styleStep p) acc) key =
        if key ≠ "" ∧ leaves.any (fun l => l.id == some key) then
          some (styleFor p key)
        else objLookup acc key := by
  induction leaves with
  | nil => intro acc key; simp
  | cons l rest ih =>
      intro acc key
      rw [List.foldl_cons, ih (styleStep p acc l) key]
      by_cases hkey : key = ""
      · rw [if_neg (by simp [hkey]), if_neg (by simp [hkey])]
        exact objLookup_styleStep_miss p acc l key (Or.inr hkey)
      · by_cases hany : rest.any (fun l' => l'.id == some key) = true
        · rw [if_pos ⟨hkey, hany⟩, if_pos ⟨hkey, by simp [hany]⟩]
        · rw [if_neg (by simp [hany])]
          by_cases hid : l.id = some key
          · rw [if_pos ⟨hkey, by simp [hid, hany]⟩]
            exact objLookup_styleStep_hit p acc l key hid hkey
          · rw [if_neg (by simp [hid, hany])]
            exact objLookup_styleStep_miss p acc l key (Or.inl hid)

/-- Claim C10: the style map contains an entry for every leaf with a
nonempty id, that entry's label is buildNodeLabel of the id, and no other
entries exist (keys come only from leaves with nonempty ids). -/
theorem generateStyles_total (p : Props) (leaves : List LeafInfo) :
    (∀ l ∈ leaves, ∀ i, l.id = some i → i ≠ "" →
      objLookup (generateStyles p leaves) i = some (styleFor p i) ∧
      (styleFor p i).label = buildNodeLabel p i) ∧
    (∀ key st, objLookup (generateStyles p leaves) key = some st →
      key ≠ "" ∧ ∃ l ∈ leaves, l.id = some key) := by
  constructor
  · intro l hl i hid hne
    have hany : leaves.any (fun l' => l'.id == some i) = true := by
      rw [List.any_eq_true]
      exact ⟨l, hl, by simp [hid]⟩
    constructor
    · rw [show generateStyles p leaves = leaves.foldl (styleStep p) []
        from rfl]
      rw [generateStyles_fold_lookup p leaves [] i, if_pos ⟨hne, hany⟩]
    · unfold styleFor
      split <;> rfl
  · intro key st hst
    rw [show generateStyles p leaves = leaves.foldl (styleStep p) []
      from rfl, generateStyles_fold_lookup p leaves [] key] at hst
    by_cases hcond : key ≠ "" ∧ leaves.any (fun l' => l'.id == some key) = true
    · obtain ⟨h1, h2⟩ := hcond
      rw [List.any_eq_true] at h2
      obtain ⟨l, hl, hbeq⟩ := h2
      exact ⟨h1, l, hl, by simpa using hbeq⟩
    · rw [if_neg hcond] at hst
      simp [objLookup] at hst

/-- Witness for the style-map claim: the labelled leaf gets an entry. -/
theorem generateStyles_total_witness :
    objLookup (generateStyles propsUSA leavesStyles) "A1" =
      some (styleFor propsUSA "A1") :=
  ((generateStyles_total propsUSA leavesStyles).1 ⟨some "A1", none⟩
    (by decide) "A1" rfl (by decide)).1

/- ## Pie-chart counting and ordering lemmas -/

/-- Unfolding the sum of a counts object over a cons cell. -/
lemma sumCounts_cons (e : String × Nat) (l : List (String × Nat)) :
    sumCounts (e :: l) = e.2 + sumCounts l := by
  simp [sumCounts]

/-- The sum of a counts object splits over append. -/
lemma sumCounts_append (l1 l2 : List (String × Nat)) :
    sumCounts (l1 ++ l2) = sumCounts l1 + sumCounts l2 := by
  simp [sumCounts]

/-- Bumping a value adds one to the object's total count. -/
lemma bump_sum (l : List (String × Nat)) (v : String) :
    sumCounts (bump l v) = sumCounts l + 1 := by
  induction l with
  | nil => simp [bump, sumCounts]
  | cons e rest ih =>
      obtain ⟨k, c⟩ := e
      by_cases h : k = v
      · simp [bump, h, sumCounts_cons]
        omega
      · simp [bump, h, sumCounts_cons, ih]
        omega

/-- Bumping keeps existing keys in place and appends a fresh key. -/
lemma bump_keys (l : List (String × Nat)) (v : String) :
    (bump l v).map Prod.fst =
      if v ∈ l.map Prod.fst then l.map Prod.fst
      else l.map Prod.fst ++ [v] := by
  induction l with
  | nil => simp [bump]
  | cons e rest ih =>
      obtain ⟨k, c⟩ := e
      by_cases h : k = v
      · subst h
        simp [bump]
      · by_cases hm : v ∈ rest.map Prod.fst
        · simp [bump, h, ih, hm, Ne.symm h]
        · simp [bump, h, ih, hm, Ne.symm h]

/-- The counting fold keeps the running total equal to the object sum. -/
lemma pieFold_sum (p : Props) :
    ∀ (ds : List LeafInfo) (acc : List (String × Nat) × Nat),
      sumCounts acc.1 = acc.2 →
      sumCounts ((ds.foldl (pieStep p) acc).1) =
        (ds.foldl (pieStep p) acc).2 := by
  intro ds
  induction ds with
  | nil => intro acc h; exact h
  | cons l rest ih =>
      intro acc h
      rw [List.foldl_cons]
      apply ih
      cases hv : leafFieldValue p l with
      | none => simpa [pieStep, hv] using h
      | some v => simp [pieStep, hv, bump_sum, h]

/-- The counting fold's key list is the first-encountered value list. -/
lemma pieFold_keys (p : Props) :
    ∀ (ds : List LeafInfo) (acc : List (String × Nat) × Nat),
      ((ds.foldl (pieStep p) acc).1).map Prod.fst =
        ds.foldl (feStep p) (acc.1.map Prod.fst) := by
  intro ds
  induction ds with
  | nil => intro acc; rfl
  | cons l rest ih =>
      intro acc
      rw [List.foldl_cons, List.foldl_cons, ih]
      congr 1
      cases hv : leafFieldValue p l with
      | none => simp [pieStep, feStep, hv]
      | some v => simp [pieStep, feStep, hv, bump_keys]

/-- Sorted insertion adds exactly the inserted count to the sum. -/
lemma insertByKey_sum (e : String × Nat) (l : List (String × Nat)) :
    sumCounts (insertByKey e l) = e.2 + sumCounts l := by
  induction l with
  | nil => simp [insertByKey, sumCounts]
  | cons f rest ih =>
      by_cases h : keyNum e.1 ≤ keyNum f.1
      · simp [insertByKey, h, sumCounts_cons]
      · simp [insertByKey, h, sumCounts_cons, ih]
        omega

/-- Insertion sort preserves the sum of the counts. -/
lemma sortByKey_sum (l : List (String × Nat)) :
    sumCounts (sortByKey l) = sumCounts l := by
  induction l with
  | nil => rfl
  | cons e rest ih => simp [sortByKey, insertByKey_sum, ih, sumCounts_cons]

/-- The two filters of the property order partition the sum. -/
lemma sumCounts_filter_partition (l : List (String × Nat)) :
    sumCounts (l.filter (fun e => (canonIndex e.1).isSome)) +
      sumCounts (l.filter (fun e => (canonIndex e.1).isNone)) =
    sumCounts l := by
  induction l with
  | nil => rfl
  | cons e rest ih =>
      cases h : canonIndex e.1 with
      | none =>
          simp [List.filter_cons, h, sumCounts_cons]
          omega
      | some n =>
          simp [List.filter_cons, h, sumCounts_cons]
          omega

/-- Reordering the counts entries as Object.entries does preserves the
total count. -/
lemma jsEntries_sum (l : List (String × Nat)) :
    sumCounts (jsEntries l) = sumCounts l := by
  unfold jsEntries
  rw [sumCounts_append, sortByKey_sum, sumCounts_filter_partition]

/-- Keys of a filtered pair list are the filtered keys. -/
lemma mapFst_filter (q : String → Bool) (l : List (String × Nat)) :
    (l.filter (fun e => q e.1)).map Prod.fst =
      (l.map Prod.fst).filter q := by
  induction l with
  | nil => rfl
  | cons e rest ih =>
      cases hq : q e.1 <;> simp [List.filter_cons, hq, ih]

/-- Sorted insertion of a pair tracks sorted insertion of its key. -/
lemma insertByKey_keys (e : String × Nat) (l : List (String × Nat)) :
    (insertByKey e l).map Prod.fst = insertKeyStr e.1 (l.map Prod.fst) := by
  induction l with
  | nil => rfl
  | cons f rest ih =>
      by_cases h : keyNum e.1 ≤ keyNum f.1
      · simp [insertByKey, insertKeyStr, h]
      · simp [insertByKey, insertKeyStr, h, ih]

/-- Sorting pairs by key tracks sorting the key list. -/
lemma sortByKey_keys (l : List (String × Nat)) :
    (sortByKey l).map Prod.fst = sortKeysStr (l.map Prod.fst) := by
  induction l with
  | nil => rfl
  | cons e rest ih => simp [sortByKey, sortKeysStr, insertByKey_keys, ih]

/-- The keys of Object.entries of the counts object are the counts keys
in ECMAScript own-property order. -/
lemma jsEntries_keys (l : List (String × Nat)) :
    (jsEntries l).map Prod.fst = jsOrderKeys (l.map Prod.fst) := by
  unfold jsEntries jsOrderKeys
  rw [List.map_append, sortByKey_keys,
    mapFst_filter (fun k => (canonIndex k).isSome),
    mapFst_filter (fun k => (canonIndex k).isNone)]

/-- The segment values are exactly the entry keys, in order. -/
lemma buildSegments_values (cm : List (String × String)) (total : Nat) :
    ∀ (entries : List (String × Nat)) (a : ℚ),
      (buildSegments cm total a entries).map (fun s => s.value) =
        entries.map Prod.fst := by
  intro entries
  induction entries with
  | nil => intro a; rfl
  | cons e rest ih =>
      intro a
      obtain ⟨v, c⟩ := e
      simp [buildSegments, ih]

/-- The segment proportions sum to the entry-count sum over the total. -/
lemma buildSegments_props_sum (cm : List (String × String)) (total : Nat) :
    ∀ (entries : List (String × Nat)) (a : ℚ),
      ((buildSegments cm total a entries).map (fun s => s.proportion)).sum =
        (sumCounts entries : ℚ) / (total : ℚ) := by
  intro entries
  induction entries with
  | nil => intro a; simp [buildSegments, sumCounts]
  | cons e rest ih =>
      intro a
      obtain ⟨v, c⟩ := e
      simp only [buildSegments, List.map_cons, List.sum_cons, ih,
        sumCounts_cons]
      push_cast
      ring

/-- The segments tile the angle interval starting at the running angle
and ending after the summed proportions of all entries. -/
lemma buildSegments_tiles (cm : List (String × String)) (total : Nat) :
    ∀ (entries : List (String × Nat)) (a : ℚ),
      TilesFrom (buildSegments cm total a entries) a
        (a + (sumCounts entries : ℚ) / (total : ℚ) * 2 * jsMathPI) := by
  intro entries
  induction entries with
  | nil =>
      intro a
      simp [buildSegments, TilesFrom, sumCounts]
  | cons e rest ih =>
      intro a
      obtain ⟨v, c⟩ := e
      refine ⟨rfl, ?_⟩
      have h := ih (a + (c : ℚ) / (total : ℚ) * 2 * jsMathPI)
      convert h using 1
      rw [sumCounts_cons]
      push_cast
      ring

/-- The first segment of a tiling starts at the interval start. -/
lemma tilesFrom_head :
    ∀ (l : List PieSegment) (a b : ℚ), TilesFrom l a b →
      ∀ s, l.head? = some s → s.startAngle = a := by
  intro l a b h s hs
  cases l with
  | nil => simp at hs
  | cons x rest =>
      simp [List.head?] at hs
      rw [← hs]
      exact h.1

/-- Consecutive segments of a tiling chain start to end. -/
lemma tilesFrom_chain :
    ∀ (l : List PieSegment) (a b : ℚ), TilesFrom l a b →
      ∀ i s t, l.get? i = some s → l.get? (i + 1) = some t →
        t.startAngle = s.endAngle := by
  intro l
  induction l with
  | nil => intro a b h i s t hs ht; simp at hs
  | cons x rest ih =>
      intro a b h i s t hs ht
      obtain ⟨hx, hrest⟩ := h
      cases i with
      | zero =>
          cases rest with
          | nil => simp [List.get?] at ht
          | cons y ys =>
              obtain ⟨hy, -⟩ := hrest
              simp [List.get?] at hs ht
              subst hs
              subst ht
              exact hy
      | succ n =>
          exact ih _ _ hrest n s t (by simpa using hs) (by simpa using ht)

/-- The last segment of a nonempty tiling ends at the interval end. -/
lemma tilesFrom_getLast :
    ∀ (l : List PieSegment) (a b : ℚ), TilesFrom l a b →
      ∀ s, l.getLast? = some s → s.endAngle = b := by
  intro l
  induction l with
  | nil => intro a b h s hs; simp at hs
  | cons x rest ih =>
      intro a b h s hs
      obtain ⟨hx, hrest⟩ := h
      cases rest with
      | nil =>
          simp [List.getLast?] at hs
          rw [← hs]
          exact hrest
      | cons y ys =>
          rw [List.getLast?_cons_cons] at hs
          exact ih _ _ hrest s hs

/-- With the guard passed and a positive total, calculatePieChartData is
the segment build over the property-ordered entries. -/
lemma calculatePieChartData_pos (p : Props) (ds : List LeafInfo)
    (hsel : selectedFieldStr p ≠ none) (hmeta : p.metadata ≠ [])
    (htot : (pieCounts p ds).2 ≠ 0) :
    calculatePieChartData p ds =
      buildSegments p.colorMap (pieCounts p ds).2 0
        (jsEntries (pieCounts p ds).1) := by
  unfold calculatePieChartData
  rw [if_neg, if_neg htot]
  push_neg
  exact ⟨hsel, by simp [List.isEmpty_iff, hmeta]⟩

/- ## Claims C1 and C4 -/

/-- The counts keys are the first-encountered counted values. -/
lemma pieCounts_keys (p : Props) (ds : List LeafInfo) :
    (pieCounts p ds).1.map Prod.fst = firstEncounteredValues p ds := by
  unfold pieCounts firstEncounteredValues
  simpa using pieFold_keys p ds ([], 0)

/-- The counts total is the sum of the per-value counters. -/
lemma pieCounts_sum (p : Props) (ds : List LeafInfo) :
    sumCounts (pieCounts p ds).1 = (pieCounts p ds).2 := by
  unfold pieCounts
  exact pieFold_sum p ds ([], 0) rfl

/-- Claim C1 (amended): with a selected field, nonempty metadata and a
positive counted total, the segment values are the distinct counted
values in ECMAScript own-property order: values that are canonical
array-index strings (integers below 2^32 - 1 in canonical decimal form)
come first in ascending numeric order, the remaining values follow in
first-encountered order over the descendant leaves in traversal order;
when no counted value is such an integer-like string this is exactly
first-encountered order. -/
theorem calculatePieChartData_order (p : Props) (node : TreeNode)
    (hsel : selectedFieldStr p ≠ none) (hmeta : p.metadata ≠ [])
    (htot : 0 < (pieCounts p (getDescendantLeaves node)).2) :
    (calculatePieChartData p (getDescendantLeaves node)).map
        (fun s => s.value) =
      jsOrderKeys (firstEncounteredValues p (getDescendantLeaves node)) ∧
    ((∀ v ∈ firstEncounteredValues p (getDescendantLeaves node),
        canonIndex v = none) →
      (calculatePieChartData p (getDescendantLeaves node)).map
          (fun s => s.value) =
        firstEncounteredValues p (getDescendantLeaves node)) := by
  have hexp := calculatePieChartData_pos p (getDescendantLeaves node)
    hsel hmeta (by omega)
  have hvals : (calculatePieChartData p (getDescendantLeaves node)).map
      (fun s => s.value) =
      jsOrderKeys (firstEncounteredValues p (getDescendantLeaves node)) := by
    rw [hexp, buildSegments_values, jsEntries_keys, pieCounts_keys]
  refine ⟨hvals, ?_⟩
  intro hall
  rw [hvals]
  unfold jsOrderKeys
  have h1 : (firstEncounteredValues p (getDescendantLeaves node)).filter
      (fun k => (canonIndex k).isSome) = [] := by
    rw [List.filter_eq_nil_iff]
    intro a ha
    simp [hall a ha]
  have h2 : (firstEncounteredValues p (getDescendantLeaves node)).filter
      (fun k => (canonIndex k).isNone) =
      firstEncounteredValues p (getDescendantLeaves node) := by
    rw [List.filter_eq_self]
    intro a ha
    simp [hall a ha]
  rw [h1, h2]
  rfl

/-- Counterexample to first-encountered ordering: with counted values 10
then 2 (both integer-like property keys), Object.entries enumerates 2
before 10, so the segments are not in first-encountered order. -/
theorem calculatePieChartData_order_counterexample :
    (calculatePieChartData propsIdx (getDescendantLeaves nodeIdx)).map
        (fun s => s.value) = ["2", "10"] ∧
    firstEncounteredValues propsIdx (getDescendantLeaves nodeIdx) =
      ["10", "2"] ∧
    (["2", "10"] : List String) ≠ ["10", "2"] := by
  refine ⟨by decide, by decide, by decide⟩

/-- Witness for the amended ordering claim at the integer-keyed example. -/
theorem calculatePieChartData_order_witness :
    0 < (pieCounts propsIdx (getDescendantLeaves nodeIdx)).2 ∧
    (calculatePieChartData propsIdx (getDescendantLeaves nodeIdx)).map
        (fun s => s.value) =
      jsOrderKeys (firstEncounteredValues propsIdx
        (getDescendantLeaves nodeIdx)) :=
  ⟨by decide,
    (calculatePieChartData_order propsIdx nodeIdx (by decide) (by decide)
      (by decide)).1⟩

/-- Claim C4: with a positive counted total the segments are nonempty,
start at angle 0, chain without gaps or overlaps, their proportions sum
to 1 within 1e-9 and the last segment ends at 2 pi within 1e-9 (the
rational model computes these identities exactly, so the stated
tolerances hold with error zero). -/
theorem calculatePieChartData_tiling (p : Props) (ds : List LeafInfo)
    (hsel : selectedFieldStr p ≠ none) (hmeta : p.metadata ≠ [])
    (htot : 0 < (pieCounts p ds).2) :
    calculatePieChartData p ds ≠ [] ∧
    (∀ s, (calculatePieChartData p ds).head? = some s →
      s.startAngle = 0) ∧
    (∀ i s t, (calculatePieChartData p ds).get? i = some s →
      (calculatePieChartData p ds).get? (i + 1) = some t →
      t.startAngle = s.endAngle) ∧
    |((calculatePieChartData p ds).map (fun s => s.proportion)).sum - 1| ≤
      1 / 1000000000 ∧
    (∀ s, (calculatePieChartData p ds).getLast? = some s →
      |s.endAngle - 2 * jsMathPI| ≤ 1 / 1000000000) := by
  have hexp := calculatePieChartData_pos p ds hsel hmeta (by omega)
  have hsumE : sumCounts (jsEntries (pieCounts p ds).1) =
      (pieCounts p ds).2 := by
    rw [jsEntries_sum, pieCounts_sum]
  have htcast : ((pieCounts p ds).2 : ℚ) ≠ 0 :=
    Nat.cast_ne_zero.mpr (by omega)
  have htiles := buildSegments_tiles p.colorMap (pieCounts p ds).2
    (jsEntries (pieCounts p ds).1) 0
  have hb : (0 : ℚ) + (sumCounts (jsEntries (pieCounts p ds).1) : ℚ) /
      ((pieCounts p ds).2 : ℚ) * 2 * jsMathPI = 2 * jsMathPI := by
    rw [hsumE, div_self htcast]
    ring
  rw [hb] at htiles
  refine ⟨?_, ?_, ?_, ?_, ?_⟩
  · rw [hexp]
    have hne : jsEntries (pieCounts p ds).1 ≠ [] := by
      intro h0
      rw [h0] at hsumE
      simp [sumCounts] at hsumE
      omega
    cases hE : jsEntries (pieCounts p ds).1 with
    | nil => exact absurd hE hne
    | cons e rest =>
        obtain ⟨v, c⟩ := e
        simp [buildSegments]
  · intro s hs
    rw [hexp] at hs
    exact tilesFrom_head _ _ _ htiles s hs
  · intro i s t hs ht
    rw [hexp] at hs ht
    exact tilesFrom_chain _ _ _ htiles i s t hs ht
  · rw [hexp, buildSegments_props_sum, hsumE, div_self htcast]
    norm_num
  · intro s hs
    rw [hexp] at hs
    rw [tilesFrom_getLast _ _ _ htiles s hs]
    norm_num

/-- Witness for the tiling claim at the spec's USA/Canada example. -/
theorem calculatePieChartData_tiling_witness :
    0 < (pieCounts propsPie leavesPie).2 ∧
    calculatePieChartData propsPie leavesPie ≠ [] ∧
    |((calculatePieChartData propsPie leavesPie).map
        (fun s => s.proportion)).sum - 1| ≤ 1 / 1000000000 :=
  ⟨by decide,
    (calculatePieChartData_tiling propsPie leavesPie (by decide) (by decide)
      (by decide)).1,
    (calculatePieChartData_tiling propsPie leavesPie (by decide) (by decide)
      (by decide)).2.2.2.1⟩
